import Mathlib

/-!
Shallow embedding of the MIDI auto-player (`src/auto.py`) and verification of
the specification's claims about it.

The embedding covers the four core components of the program:

* the pitch mapper (`KEY_MAP`, `WHITE_KEYS`, `get_closest_white_key`,
  `get_key_for_pitch`);
* the tempo-aware event extractor (`parse_midi_all_tempo`);
* the timeline normalizer (`post_process_events`);
* the playback dispatch loop (`play_midi_events`), modelled as a function of
  the timeline and the loop iteration at which cancellation is observed.

Python floats are modelled by `ℚ`; Python's stable `list.sort` is modelled by
`List.insertionSort`, which is likewise a stable sort.
-/

namespace AutoPiano

/-- Kind of a note message, mirroring the Python strings used in the event
tuples: this is `msg.type` restricted to the two note message kinds. -/
inductive EKind where
  | note_on : EKind
  | note_off : EKind
deriving DecidableEq

/-- A playable note event `(time_in_seconds, type, note, velocity)` as produced
by `parse_midi_all_tempo` and consumed by the normalizer and the scheduler. -/
structure NoteEvent where
  time : ℚ
  kind : EKind
  note : Int
  velocity : Int
deriving DecidableEq

/-- Payload carried by a raw MIDI message, as far as the extractor looks at
it: note on/off with note and velocity, a tempo change, or anything else
(sysex, control change, ...), which the extractor ignores. -/
inductive RawPayload where
  | noteOn (note velocity : Int)
  | noteOff (note velocity : Int)
  | setTempo (tempo : Nat)
  | other
deriving DecidableEq

/-- One raw MIDI message in a track: a delta tick (`msg.time`) and a payload. -/
structure RawMsg where
  deltaTick : Nat
  payload : RawPayload
deriving DecidableEq

/-- Data part of a merged event tuple: `('set_tempo', None, None, tempo)` or
`(note kind, note, velocity, None)` in the Python 5-tuples. -/
inductive EvtData where
  | setTempo (tempo : Nat)
  | note (kind : EKind) (note velocity : Int)
deriving DecidableEq

/-- A merged event `(abs_tick, ...)` collected in `all_events` during steps
1-2 of `parse_midi_all_tempo`. -/
structure TimedMidiEvent where
  tick : Nat
  data : EvtData
deriving DecidableEq

/-- Steps 1-2 of `parse_midi_all_tempo` for one track: accumulate `msg.time`
into `abs_tick` and collect `set_tempo` and `note_on`/`note_off` events;
other message kinds are dropped. -/
def collectTrack : Nat → List RawMsg → List TimedMidiEvent
  | _, [] => []
  | absTick, m :: rest =>
    let t := absTick + m.deltaTick
    match m.payload with
    | .setTempo v => ⟨t, .setTempo v⟩ :: collectTrack t rest
    | .noteOn n v => ⟨t, .note .note_on n v⟩ :: collectTrack t rest
    | .noteOff n v => ⟨t, .note .note_off n v⟩ :: collectTrack t rest
    | .other => collectTrack t rest

/-- `mido.tick2second`: `scale = tempo * 1e-6 / ticks_per_beat` and the result
is `tick * scale`. -/
def tick2second (tick ticks_per_beat tempo : Nat) : ℚ :=
  (tick : ℚ) * ((tempo : ℚ) / 1000000 / (ticks_per_beat : ℚ))

/-- Python's stable sort of the merged events by `e[0]` (absolute tick). -/
def sortByTick (l : List TimedMidiEvent) : List TimedMidiEvent :=
  List.insertionSort (fun a b => a.tick ≤ b.tick) l

/-- Python's stable sort of note events by `e[0]` (time in seconds). -/
def sortByTime (l : List NoteEvent) : List NoteEvent :=
  List.insertionSort (fun a b => a.time ≤ b.time) l

/-- Python's stable sort of a chord group by `x[2]` (note number). -/
def sortByNote (l : List NoteEvent) : List NoteEvent :=
  List.insertionSort (fun a b => a.note ≤ b.note) l

/-- One step of the state update in step 4 of `parse_midi_all_tempo`: clamp
`delta_tick` at zero and, when positive, add the converted seconds to the
running time. -/
def stepTime (tpb : Nat) (currentTime : ℚ) (prevTick currentTempo tick : Nat) : ℚ :=
  if 0 < ((tick : Int) - (prevTick : Int)).toNat then
    currentTime + tick2second (((tick : Int) - (prevTick : Int)).toNat) tpb currentTempo
  else currentTime

/-- Step 4 of `parse_midi_all_tempo`: walk the tick-sorted events maintaining
`current_time`, `prev_tick` and `current_tempo`, emitting one `NoteEvent` per
note message and updating the tempo on `set_tempo`. -/
def extractLoop (tpb : Nat) : List TimedMidiEvent → ℚ → Nat → Nat → List NoteEvent
  | [], _, _, _ => []
  | ⟨tick, .setTempo v⟩ :: rest, currentTime, prevTick, currentTempo =>
      extractLoop tpb rest (stepTime tpb currentTime prevTick currentTempo tick) tick v
  | ⟨tick, .note k n vel⟩ :: rest, currentTime, prevTick, currentTempo =>
      ⟨stepTime tpb currentTime prevTick currentTempo tick, k, n, vel⟩ ::
        extractLoop tpb rest (stepTime tpb currentTime prevTick currentTempo tick) tick
          currentTempo

/-- The `(current_time, prev_tick, current_tempo)` state after walking a list
of merged events in step 4 of `parse_midi_all_tempo`. -/
def runState (tpb : Nat) : List TimedMidiEvent → ℚ → Nat → Nat → ℚ × Nat × Nat
  | [], currentTime, prevTick, currentTempo => (currentTime, prevTick, currentTempo)
  | ⟨tick, .setTempo v⟩ :: rest, currentTime, prevTick, currentTempo =>
      runState tpb rest (stepTime tpb currentTime prevTick currentTempo tick) tick v
  | ⟨tick, .note _ _ _⟩ :: rest, currentTime, prevTick, currentTempo =>
      runState tpb rest (stepTime tpb currentTime prevTick currentTempo tick) tick currentTempo

/-- The merged, tick-sorted event stream of steps 1-3 of
`parse_midi_all_tempo`. -/
def mergedEvents (tracks : List (List RawMsg)) : List TimedMidiEvent :=
  sortByTick ((tracks.map (collectTrack 0)).flatten)

/-- `parse_midi_all_tempo`: merge all tracks, sort by absolute tick, convert
through the piecewise-constant tempo map starting from the default tempo
500000, and finally re-sort the results by time. -/
def parse_midi_all_tempo (ticks_per_beat : Nat) (tracks : List (List RawMsg)) :
    List NoteEvent :=
  sortByTime (extractLoop ticks_per_beat (mergedEvents tracks) 0 0 500000)

/-- `parse_midi_all_tempo` with the final defensive re-sort (line 175 of
`src/auto.py`) removed; used to settle whether that re-sort is required. -/
def parse_midi_all_tempo_noresort (ticks_per_beat : Nat)
    (tracks : List (List RawMsg)) : List NoteEvent :=
  extractLoop ticks_per_beat (mergedEvents tracks) 0 0 500000

/-! ## Timeline normalizer (`post_process_events`) -/

/-- The fixed epsilon under which two event times count as simultaneous in
pass 1 of `post_process_events` (`1e-9` in the source). -/
def eps : ℚ := 1 / 1000000000

/-- The inner `while j < n and abs(events[j][0] - base_time) < 1e-9` loop of
`post_process_events`: split off the consecutive events simultaneous with the
group's base time, returning the group's tail and the remaining events. -/
def takeChord (base : ℚ) : List NoteEvent → List NoteEvent × List NoteEvent
  | [] => ([], [])
  | e :: rest =>
    if |e.time - base| < eps then
      let p := takeChord base rest
      (e :: p.1, p.2)
    else ([], e :: rest)

/-- Re-timing of one chord group in pass 1 of `post_process_events`: sort the
group by note and move its k-th member (0-indexed) to
`base_time + k * chord_min_interval`. -/
def spreadChord (base_time chord_min_interval : ℚ) (chord_group : List NoteEvent) :
    List NoteEvent :=
  (sortByNote chord_group).enum.map
    (fun kv => ⟨base_time + (kv.1 : ℚ) * chord_min_interval, kv.2.kind, kv.2.note, kv.2.velocity⟩)

/-- Pass 1 of `post_process_events` (the outer `while i < n` loop): group
consecutive events simultaneous with the group's first event and spread each
group by `chord_min_interval`. -/
def chordPass (chord_min_interval : ℚ) : List NoteEvent → List NoteEvent
  | [] => []
  | e :: rest =>
    let p := takeChord e.time rest
    spreadChord e.time chord_min_interval (e :: p.1) ++ chordPass chord_min_interval p.2
termination_by l => l.length
decreasing_by
  simp only [List.length_cons]
  have h : ∀ (b : ℚ) (l : List NoteEvent), (takeChord b l).2.length ≤ l.length := by
    intro b l
    induction l with
    | nil => simp [takeChord]
    | cons x xs ih =>
      rw [takeChord]
      split
      · exact le_trans ih (Nat.le_succ _)
      · exact le_refl _
  exact Nat.lt_succ_of_le (h e.time rest)

/-- The `for idx in range(1, len(new_events))` loop of `post_process_events`:
walk left to right, advancing any event closer than `note_min_interval` to the
previously emitted event up to the minimum allowed time. -/
def adjustLoop (note_min_interval : ℚ) : ℚ → List NoteEvent → List NoteEvent
  | _, [] => []
  | prevTime, e :: rest =>
    let t := if e.time < prevTime + note_min_interval then prevTime + note_min_interval
             else e.time
    ⟨t, e.kind, e.note, e.velocity⟩ :: adjustLoop note_min_interval t rest

/-- Pass 2 of `post_process_events`: seed `adjusted` with the first event,
enforce the minimum spacing left to right, and re-sort by time. -/
def spacingPass (note_min_interval : ℚ) (new_events : List NoteEvent) : List NoteEvent :=
  match new_events with
  | [] => []
  | f :: rest => sortByTime (f :: adjustLoop note_min_interval f.time rest)

/-- `post_process_events`: chord spreading, re-sort by time, minimum-spacing
enforcement, final re-sort by time. Empty input returns empty output. -/
def post_process_events (events : List NoteEvent)
    (chord_min_interval note_min_interval : ℚ) : List NoteEvent :=
  match events with
  | [] => []
  | _ :: _ => spacingPass note_min_interval (sortByTime (chordPass chord_min_interval events))

/-! ## Pitch mapper -/

/-- `KEY_MAP`: the fixed MIDI-note-to-keyboard mapping, in source order. -/
def KEY_MAP : List (Int × Char) :=
  [(72, '1'), (74, '2'), (76, '3'), (77, '4'), (79, '5'), (81, '6'), (83, '7'),
   (60, 'q'), (62, 'w'), (64, 'e'), (65, 'f'), (67, 't'), (69, 'y'), (71, 'u'),
   (48, 'a'), (50, 's'), (52, 'd'), (53, 'f'), (55, 'g'), (57, 'h'), (59, 'j')]

/-- `WHITE_KEYS = sorted(KEY_MAP.keys())`. -/
def WHITE_KEYS : List Int :=
  List.insertionSort (fun a b : Int => a ≤ b) (KEY_MAP.map Prod.fst)

/-- The `for w in WHITE_KEYS` loop of `get_closest_white_key`, carrying the
running `closest` and `min_diff`: a strictly smaller difference always wins,
and on an equal difference a smaller key replaces the running closest. -/
def closestLoop (pitch : Int) : List Int → Int → Int → Int
  | [], closest, _ => closest
  | w :: ws, closest, min_diff =>
    let diff := |pitch - w|
    if diff < min_diff then closestLoop pitch ws w diff
    else if diff = min_diff then
      if w < closest then closestLoop pitch ws w diff
      else closestLoop pitch ws closest min_diff
    else closestLoop pitch ws closest min_diff

/-- `get_closest_white_key`: `None` on an empty key list, clamp below the
lowest and above the highest mapped key, otherwise scan the whole list for the
closest key. -/
def get_closest_white_key (pitch : Int) : Option Int :=
  if WHITE_KEYS = [] then none
  else
    let lo := WHITE_KEYS.headD 0
    let hi := WHITE_KEYS.getLastD 0
    if pitch < lo then some lo
    else if hi < pitch then some hi
    else some (closestLoop pitch WHITE_KEYS lo (|pitch - lo|))

/-- `get_key_for_pitch`: exact lookup in `KEY_MAP`, else lookup of the closest
white key, else `None`. -/
def get_key_for_pitch (pitch : Int) : Option Char :=
  match KEY_MAP.lookup pitch with
  | some c => some c
  | none =>
    match get_closest_white_key pitch with
    | some cwk => KEY_MAP.lookup cwk
    | none => none

/-! ## Playback scheduler (`play_midi_events`) -/

/-- An invocation of the output sink: `pydirectinput.keyDown` (press) or
`pydirectinput.keyUp` (release) of one keyboard symbol. -/
inductive Action where
  | press (key : Char)
  | release (key : Char)
deriving DecidableEq

/-- Dispatch of a single timeline event in the playback loop: skip silently
when no key is mapped, press on a `note_on` with positive velocity, release
otherwise. -/
def dispatch (e : NoteEvent) : List Action :=
  match get_key_for_pitch e.note with
  | none => []
  | some key =>
    if e.kind = EKind.note_on ∧ 0 < e.velocity then [Action.press key]
    else [Action.release key]

/-- `pressed_pitches = set(e[2] for e in self.events)`: the distinct note
values appearing anywhere in the timeline. -/
def pressedPitches (events : List NoteEvent) : List Int :=
  (events.map NoteEvent.note).dedup

/-- One iteration of the cleanup loop at the end of `play_midi_events`: the
`(pitch, key)` release invocation made for pitch `p`, or `none` when
`get_key_for_pitch` yields no key and the iteration performs no sink call. -/
def releaseCall (p : Int) : Option (Int × Char) :=
  (get_key_for_pitch p).map (fun k => (p, k))

/-- The cleanup loop at the end of `play_midi_events`, one `(pitch, key)`
release invocation per distinct pitch whose key lookup succeeds. -/
def cleanup_calls (events : List NoteEvent) : List (Int × Char) :=
  (pressedPitches events).filterMap releaseCall

/-- The playback loop `play_midi_events` as a function of the timeline and the
iteration at which the `stop_flag` cancellation is first observed: the first
`cancelAt` events are dispatched (all of them when `cancelAt` is at least the
timeline's length, i.e. natural completion), then every distinct pitch of the
timeline has its key released. The result is the trace of sink invocations. -/
def play_midi_events (events : List NoteEvent) (cancelAt : Nat) : List Action :=
  ((events.take cancelAt).map dispatch).flatten ++
    (cleanup_calls events).map (fun pk => Action.release pk.2)

/-- The time-independent part of a note event: everything the normalizer is
not allowed to change. -/
def payload (e : NoteEvent) : EKind × Int × Int := (e.kind, e.note, e.velocity)

/-! ## Extractor lemmas -/

theorem tick2second_nonneg (tick ticks_per_beat tempo : Nat) :
    0 ≤ tick2second tick ticks_per_beat tempo := by
  unfold tick2second
  positivity

theorem le_stepTime (tpb : Nat) (currentTime : ℚ) (prevTick currentTempo tick : Nat) :
    currentTime ≤ stepTime tpb currentTime prevTick currentTempo tick := by
  unfold stepTime
  split
  · exact le_add_of_nonneg_right (tick2second_nonneg _ _ _)
  · exact le_refl _

theorem extractLoop_time_ge (tpb : Nat) :
    ∀ (l : List TimedMidiEvent) (currentTime : ℚ) (prevTick currentTempo : Nat),
      ∀ e ∈ extractLoop tpb l currentTime prevTick currentTempo, currentTime ≤ e.time
  | [], _, _, _ => by simp [extractLoop]
  | ⟨tick, .setTempo v⟩ :: rest, t, pt, tmp => by
      intro e he
      rw [extractLoop] at he
      exact le_trans (le_stepTime tpb t pt tmp tick)
        (extractLoop_time_ge tpb rest _ _ _ e he)
  | ⟨tick, .note k n vel⟩ :: rest, t, pt, tmp => by
      intro e he
      rw [extractLoop] at he
      rcases List.mem_cons.mp he with h | h
      · subst h
        exact le_stepTime tpb t pt tmp tick
      · exact le_trans (le_stepTime tpb t pt tmp tick)
          (extractLoop_time_ge tpb rest _ _ _ e h)

theorem extractLoop_sorted (tpb : Nat) :
    ∀ (l : List TimedMidiEvent) (currentTime : ℚ) (prevTick currentTempo : Nat),
      List.Sorted (fun a b : NoteEvent => a.time ≤ b.time)
        (extractLoop tpb l currentTime prevTick currentTempo)
  | [], _, _, _ => by simp [extractLoop]
  | ⟨tick, .setTempo v⟩ :: rest, t, pt, tmp => by
      rw [extractLoop]
      exact extractLoop_sorted tpb rest _ _ _
  | ⟨tick, .note k n vel⟩ :: rest, t, pt, tmp => by
      rw [extractLoop]
      refine List.sorted_cons.mpr ⟨?_, extractLoop_sorted tpb rest _ _ _⟩
      intro b hb
      exact extractLoop_time_ge tpb rest _ _ _ b hb

theorem extractLoop_append (tpb : Nat) :
    ∀ (l1 l2 : List TimedMidiEvent) (currentTime : ℚ) (prevTick currentTempo : Nat),
      extractLoop tpb (l1 ++ l2) currentTime prevTick currentTempo =
        extractLoop tpb l1 currentTime prevTick currentTempo ++
          extractLoop tpb l2 (runState tpb l1 currentTime prevTick currentTempo).1
            (runState tpb l1 currentTime prevTick currentTempo).2.1
            (runState tpb l1 currentTime prevTick currentTempo).2.2
  | [], l2, t, pt, tmp => by simp [extractLoop, runState]
  | ⟨tick, .setTempo v⟩ :: rest, l2, t, pt, tmp => by
      simp only [List.cons_append, extractLoop, runState, List.append_eq]
      exact extractLoop_append tpb rest l2 _ _ _
  | ⟨tick, .note k n vel⟩ :: rest, l2, t, pt, tmp => by
      simp only [List.cons_append, extractLoop, runState, List.append_eq]
      rw [extractLoop_append tpb rest l2 _ _ _]

/-! ## Claim C1 -/

/-- C1: for a file with `ticksPerQuarterNote = 480` containing `SetTempo(500000)`
at tick 0 and a `NoteOn` at tick 480, the extracted note event's time is
exactly `0.5` seconds. -/
theorem tick_to_time_correctness :
    parse_midi_all_tempo 480 [[⟨0, .setTempo 500000⟩, ⟨480, .noteOn 60 100⟩]] =
      [⟨1/2, .note_on, 60, 100⟩] := by
  simp only [parse_midi_all_tempo, mergedEvents, collectTrack, List.map, List.flatten,
    List.append_nil, sortByTick, sortByTime, List.insertionSort, List.orderedInsert,
    extractLoop, stepTime, tick2second]
  norm_num [show Int.toNat 480 = 480 from rfl]

/-! ## Claim C2 -/

theorem stepTime_self (tpb : Nat) (x : ℚ) (tmp t : Nat) : stepTime tpb x t tmp t = x := by
  unfold stepTime
  simp

/-- C2: a `SetTempo` event affects only the conversion of tick deltas after it:
the note events computed from the part of the merged stream before the tempo
change are identical whether or not the tempo change (and anything after it)
is present, and they are computed from the default tempo 500000; moreover a
note event at the very tick of the tempo change still gets the same time as
without the tempo change. -/
theorem tempo_change_not_retroactive (tpb : Nat) (pre suf : List TimedMidiEvent)
    (t v : Nat) (k : EKind) (n vel : Int) :
    ((extractLoop tpb (pre ++ ⟨t, .setTempo v⟩ :: suf) 0 0 500000).take
        (extractLoop tpb pre 0 0 500000).length = extractLoop tpb pre 0 0 500000 ∧
      (extractLoop tpb (pre ++ suf) 0 0 500000).take
        (extractLoop tpb pre 0 0 500000).length = extractLoop tpb pre 0 0 500000) ∧
      (extractLoop tpb (pre ++ ⟨t, .setTempo v⟩ :: ⟨t, .note k n vel⟩ :: suf)
          0 0 500000).take ((extractLoop tpb pre 0 0 500000).length + 1) =
        (extractLoop tpb (pre ++ ⟨t, .note k n vel⟩ :: suf) 0 0 500000).take
          ((extractLoop tpb pre 0 0 500000).length + 1) := by
  refine ⟨⟨?_, ?_⟩, ?_⟩
  · rw [extractLoop_append]
    exact List.take_left _ _
  · rw [extractLoop_append]
    exact List.take_left _ _
  · rw [extractLoop_append, extractLoop_append]
    simp only [extractLoop, stepTime_self]
    rw [List.take_append_eq_append_take, List.take_append_eq_append_take]
    simp [List.take_of_length_le, Nat.add_sub_cancel_left]

/-! ## Claim C9 -/

/-- C9 counterexample: the claim is false — there is no input on which the
step-3 walk output fails to be non-decreasing in time, nor one on which the
defensive re-sort changes the extractor's output. -/
theorem defensive_resort_never_fires :
    ¬ ∃ (tpb : Nat) (tracks : List (List RawMsg)),
        ¬ List.Sorted (fun a b : NoteEvent => a.time ≤ b.time)
            (parse_midi_all_tempo_noresort tpb tracks) ∨
          parse_midi_all_tempo tpb tracks ≠ parse_midi_all_tempo_noresort tpb tracks := by
  rintro ⟨tpb, tracks, h | h⟩
  · exact h (extractLoop_sorted tpb (mergedEvents tracks) 0 0 500000)
  · apply h
    unfold parse_midi_all_tempo parse_midi_all_tempo_noresort sortByTime
    exact List.Sorted.insertionSort_eq (extractLoop_sorted tpb (mergedEvents tracks) 0 0 500000)

/-- C9 amended: the step-4 defensive re-sort is a no-op — the walk output is
always already non-decreasing in time, and the extractor with the re-sort
removed is extensionally equal to the extractor with it. -/
theorem step3_walk_output_already_sorted (tpb : Nat) (tracks : List (List RawMsg)) :
    List.Sorted (fun a b : NoteEvent => a.time ≤ b.time)
        (parse_midi_all_tempo_noresort tpb tracks) ∧
      parse_midi_all_tempo tpb tracks = parse_midi_all_tempo_noresort tpb tracks := by
  have hs := extractLoop_sorted tpb (mergedEvents tracks) 0 0 500000
  refine ⟨hs, ?_⟩
  unfold parse_midi_all_tempo parse_midi_all_tempo_noresort sortByTime
  exact List.Sorted.insertionSort_eq hs

/-! ## Normalizer lemmas -/

theorem takeChord_snd_length (base : ℚ) (l : List NoteEvent) :
    (takeChord base l).2.length ≤ l.length := by
  induction l with
  | nil => simp [takeChord]
  | cons e rest ih =>
    rw [takeChord]
    split
    · exact le_trans ih (Nat.le_succ _)
    · exact le_refl _

theorem takeChord_append_eq (base : ℚ) (l : List NoteEvent) :
    (takeChord base l).1 ++ (takeChord base l).2 = l := by
  induction l with
  | nil => simp [takeChord]
  | cons e rest ih =>
    rw [takeChord]
    split
    · simpa using ih
    · simp

theorem takeChord_eq_of (base : ℚ) (g rest : List NoteEvent)
    (hg : ∀ x ∈ g, |x.time - base| < eps)
    (hr : ∀ r rs, rest = r :: rs → ¬ |r.time - base| < eps) :
    takeChord base (g ++ rest) = (g, rest) := by
  induction g with
  | nil =>
    cases rest with
    | nil => simp [takeChord]
    | cons r rs =>
      rw [List.nil_append, takeChord, if_neg (hr r rs rfl)]
  | cons x xs ih =>
    rw [List.cons_append, takeChord,
      if_pos (hg x (List.mem_cons_self x xs)),
      ih (fun y hy => hg y (List.mem_cons_of_mem x hy))]

theorem chordPass_cons (c : ℚ) (e : NoteEvent) (rest : List NoteEvent) :
    chordPass c (e :: rest) =
      spreadChord e.time c (e :: (takeChord e.time rest).1) ++
        chordPass c (takeChord e.time rest).2 := by
  rw [chordPass]

theorem spreadChord_map_payload (b c : ℚ) (g : List NoteEvent) :
    (spreadChord b c g).map payload = (sortByNote g).map payload := by
  unfold spreadChord
  rw [List.map_map]
  have h : (payload ∘ fun kv : Nat × NoteEvent =>
      (⟨b + (kv.1 : ℚ) * c, kv.2.kind, kv.2.note, kv.2.velocity⟩ : NoteEvent)) =
        payload ∘ Prod.snd := rfl
  rw [h, ← List.map_map, List.enum_eq_enumFrom, List.enumFrom_map_snd]

theorem spreadChord_map_note (b c : ℚ) (g : List NoteEvent) :
    (spreadChord b c g).map NoteEvent.note = (sortByNote g).map NoteEvent.note := by
  unfold spreadChord
  rw [List.map_map]
  have h : (NoteEvent.note ∘ fun kv : Nat × NoteEvent =>
      (⟨b + (kv.1 : ℚ) * c, kv.2.kind, kv.2.note, kv.2.velocity⟩ : NoteEvent)) =
        NoteEvent.note ∘ Prod.snd := rfl
  rw [h, ← List.map_map, List.enum_eq_enumFrom, List.enumFrom_map_snd]

theorem chordPass_payload_fuel (c : ℚ) :
    ∀ (n : Nat) (l : List NoteEvent), l.length ≤ n →
      ((chordPass c l).map payload).Perm (l.map payload) := by
  intro n
  induction n with
  | zero =>
    intro l hl
    have h0 : l = [] := List.length_eq_zero.mp (Nat.le_zero.mp hl)
    subst h0
    simp [chordPass]
  | succ n ih =>
    intro l hl
    match l with
    | [] => simp [chordPass]
    | e :: rest =>
      rw [chordPass_cons, List.map_append]
      have hlen : (takeChord e.time rest).2.length ≤ n := by
        have h1 := takeChord_snd_length e.time rest
        simp only [List.length_cons] at hl
        omega
      have h1 : ((spreadChord e.time c (e :: (takeChord e.time rest).1)).map payload).Perm
          ((e :: (takeChord e.time rest).1).map payload) := by
        rw [spreadChord_map_payload]
        exact (List.perm_insertionSort _ _).map payload
      have h2 := ih (takeChord e.time rest).2 hlen
      have h3 : ((e :: (takeChord e.time rest).1).map payload ++
          ((takeChord e.time rest).2).map payload) = (e :: rest).map payload := by
        rw [← List.map_append, List.cons_append, takeChord_append_eq]
      exact (h1.append h2).trans (List.Perm.of_eq h3)

theorem chordPass_payload (c : ℚ) (l : List NoteEvent) :
    ((chordPass c l).map payload).Perm (l.map payload) :=
  chordPass_payload_fuel c l.length l (le_refl _)

theorem adjustLoop_map_payload (m : ℚ) :
    ∀ (prev : ℚ) (l : List NoteEvent), (adjustLoop m prev l).map payload = l.map payload
  | _, [] => rfl
  | prev, e :: rest => by
      simp only [adjustLoop, List.map_cons]
      rw [adjustLoop_map_payload m _ rest]
      rfl

theorem adjustLoop_length (m prev : ℚ) (l : List NoteEvent) :
    (adjustLoop m prev l).length = l.length := by
  have h := congrArg List.length (adjustLoop_map_payload m prev l)
  simpa using h

theorem adjustLoop_get_time (m : ℚ) :
    ∀ (l : List NoteEvent) (prev : ℚ) (i : Nat) (h1 : i < l.length)
      (h2 : i < (adjustLoop m prev l).length),
      (l.get ⟨i, h1⟩).time ≤ ((adjustLoop m prev l).get ⟨i, h2⟩).time
  | [], _, i, h1, _ => by simp at h1
  | e :: rest, prev, 0, h1, h2 => by
      simp only [adjustLoop, List.get]
      split
      · next h => exact le_of_lt h
      · exact le_refl _
  | e :: rest, prev, i+1, h1, h2 => by
      simp only [adjustLoop, List.get]
      exact adjustLoop_get_time m rest _ i _ _

theorem adjustLoop_chain (m : ℚ) :
    ∀ (l : List NoteEvent) (prev : ℚ),
      List.Chain' (fun a b : NoteEvent => a.time + m ≤ b.time) (adjustLoop m prev l) ∧
        ∀ x ∈ (adjustLoop m prev l).head?, prev + m ≤ x.time
  | [], prev => by simp [adjustLoop]
  | e :: rest, prev => by
      simp only [adjustLoop]
      obtain ⟨hc, hh⟩ := adjustLoop_chain m rest
        (if e.time < prev + m then prev + m else e.time)
      have hmono : prev + m ≤ (if e.time < prev + m then prev + m else e.time) := by
        split
        · exact le_refl _
        · next h => exact le_of_not_lt h
      refine ⟨List.chain'_cons'.mpr ⟨fun y hy => hh y hy, hc⟩, ?_⟩
      intro x hx
      simp only [List.head?_cons, Option.mem_some_iff] at hx
      subst hx
      exact hmono

theorem sortByTime_sorted (l : List NoteEvent) :
    List.Sorted (fun a b : NoteEvent => a.time ≤ b.time) (sortByTime l) := by
  haveI h1 : IsTotal NoteEvent (fun a b : NoteEvent => a.time ≤ b.time) :=
    ⟨fun a b => le_total _ _⟩
  haveI h2 : IsTrans NoteEvent (fun a b : NoteEvent => a.time ≤ b.time) :=
    ⟨fun _ _ _ ha hb => le_trans ha hb⟩
  exact List.sorted_insertionSort _ l

theorem spacingPass_sorted (m : ℚ) (l : List NoteEvent) :
    List.Sorted (fun a b : NoteEvent => a.time ≤ b.time) (spacingPass m l) := by
  match l with
  | [] => exact List.sorted_nil
  | f :: rest => exact sortByTime_sorted _

theorem post_process_sorted (events : List NoteEvent) (c m : ℚ) :
    List.Sorted (fun a b : NoteEvent => a.time ≤ b.time)
      (post_process_events events c m) := by
  match events with
  | [] => exact List.sorted_nil
  | e :: rest => exact spacingPass_sorted m _

theorem spacingPass_eq_of_nonneg (m : ℚ) (hm : 0 ≤ m) (f : NoteEvent)
    (rest : List NoteEvent) :
    spacingPass m (f :: rest) = f :: adjustLoop m f.time rest := by
  show sortByTime (f :: adjustLoop m f.time rest) = f :: adjustLoop m f.time rest
  unfold sortByTime
  apply List.Sorted.insertionSort_eq
  obtain ⟨hc, hh⟩ := adjustLoop_chain m rest f.time
  have hchain : List.Chain' (fun a b : NoteEvent => a.time ≤ b.time)
      (f :: adjustLoop m f.time rest) := by
    refine List.chain'_cons'.mpr ⟨?_, hc.imp ?_⟩
    · intro y hy
      have h1 := hh y hy
      linarith
    · intro a b hab
      linarith
  haveI h2 : IsTrans NoteEvent (fun a b : NoteEvent => a.time ≤ b.time) :=
    ⟨fun _ _ _ ha hb => le_trans ha hb⟩
  exact List.chain'_iff_pairwise.mp hchain

theorem spacingPass_map_payload_perm (m : ℚ) (l : List NoteEvent) :
    ((spacingPass m l).map payload).Perm (l.map payload) := by
  match l with
  | [] => simp [spacingPass]
  | f :: rest =>
    show ((sortByTime (f :: adjustLoop m f.time rest)).map payload).Perm _
    unfold sortByTime
    refine ((List.perm_insertionSort _ _).map payload).trans ?_
    simp only [List.map_cons]
    rw [adjustLoop_map_payload]

theorem spreadChord_time_form (b c : ℚ) (g : List NoteEvent) :
    ∀ x ∈ spreadChord b c g, ∃ k : Nat, x.time = b + (k : ℚ) * c := by
  intro x hx
  unfold spreadChord at hx
  obtain ⟨kv, _, rfl⟩ := List.mem_map.mp hx
  exact ⟨kv.1, rfl⟩

theorem chordPass_time_nonneg_fuel (c : ℚ) (hc : 0 ≤ c) :
    ∀ (n : Nat) (l : List NoteEvent), l.length ≤ n → (∀ e ∈ l, 0 ≤ e.time) →
      ∀ e ∈ chordPass c l, 0 ≤ e.time := by
  intro n
  induction n with
  | zero =>
    intro l hl _
    have h0 : l = [] := List.length_eq_zero.mp (Nat.le_zero.mp hl)
    subst h0
    simp [chordPass]
  | succ n ih =>
    intro l hl hpos
    match l with
    | [] => simp [chordPass]
    | e :: rest =>
      rw [chordPass_cons]
      intro x hx
      rcases List.mem_append.mp hx with h | h
      · obtain ⟨k, hk⟩ := spreadChord_time_form e.time c _ x h
        rw [hk]
        have he : 0 ≤ e.time := hpos e (List.mem_cons_self e rest)
        positivity
      · have hlen : (takeChord e.time rest).2.length ≤ n := by
          have h1 := takeChord_snd_length e.time rest
          simp only [List.length_cons] at hl
          omega
        refine ih _ hlen ?_ x h
        intro y hy
        refine hpos y (List.mem_cons_of_mem e ?_)
        rw [← takeChord_append_eq e.time rest]
        exact List.mem_append_right _ hy

theorem adjustLoop_time_mem (m : ℚ) :
    ∀ (l : List NoteEvent) (prev : ℚ), ∀ x ∈ adjustLoop m prev l,
      ∃ y ∈ l, y.time ≤ x.time
  | [], _ => by simp [adjustLoop]
  | e :: rest, prev => by
      intro x hx
      simp only [adjustLoop] at hx
      rcases List.mem_cons.mp hx with h | h
      · refine ⟨e, List.mem_cons_self e rest, ?_⟩
        subst h
        show e.time ≤ (if e.time < prev + m then prev + m else e.time)
        split
        · next hlt => exact le_of_lt hlt
        · exact le_refl _
      · obtain ⟨y, hy, hle⟩ := adjustLoop_time_mem m rest _ x h
        exact ⟨y, List.mem_cons_of_mem e hy, hle⟩

theorem spacingPass_time_nonneg (m : ℚ) (l : List NoteEvent)
    (hl : ∀ e ∈ l, 0 ≤ e.time) : ∀ e ∈ spacingPass m l, 0 ≤ e.time := by
  match l with
  | [] => simp [spacingPass]
  | f :: rest =>
    intro e he
    have he2 : e ∈ f :: adjustLoop m f.time rest := by
      have h3 : e ∈ sortByTime (f :: adjustLoop m f.time rest) := he
      unfold sortByTime at h3
      exact (List.mem_insertionSort _).mp h3
    rcases List.mem_cons.mp he2 with h | h
    · rw [h]
      exact hl f (List.mem_cons_self f rest)
    · obtain ⟨y, hy, hle⟩ := adjustLoop_time_mem m rest f.time e h
      exact le_trans (hl y (List.mem_cons_of_mem f hy)) hle

theorem post_process_time_nonneg (events : List NoteEvent) (c m : ℚ) (hc : 0 ≤ c)
    (hpos : ∀ e ∈ events, 0 ≤ e.time) :
    ∀ e ∈ post_process_events events c m, 0 ≤ e.time := by
  match events with
  | [] => simp [post_process_events]
  | e0 :: rest =>
    show ∀ e ∈ spacingPass m (sortByTime (chordPass c (e0 :: rest))), 0 ≤ e.time
    refine spacingPass_time_nonneg m _ ?_
    intro y hy
    have hy2 : y ∈ chordPass c (e0 :: rest) := by
      unfold sortByTime at hy
      exact (List.mem_insertionSort _).mp hy
    exact chordPass_time_nonneg_fuel c hc (e0 :: rest).length _ (le_refl _) hpos y hy2

theorem parse_time_nonneg (tpb : Nat) (tracks : List (List RawMsg)) :
    ∀ e ∈ parse_midi_all_tempo tpb tracks, 0 ≤ e.time := by
  intro e he
  unfold parse_midi_all_tempo sortByTime at he
  exact extractLoop_time_ge tpb _ 0 0 500000 e ((List.mem_insertionSort _).mp he)

/-! ## Claim C3 -/

/-- C3: the extractor's output and the normalizer's output are non-decreasing
in time; all extracted times are non-negative (tick deltas and tempo values
are non-negative by construction), and normalization preserves
non-negativity of times for non-negative intervals. -/
theorem pipeline_monotone (tpb : Nat) (tracks : List (List RawMsg))
    (events : List NoteEvent) (c m : ℚ) (hc : 0 ≤ c) (hm : 0 ≤ m) :
    List.Sorted (fun a b : NoteEvent => a.time ≤ b.time)
        (parse_midi_all_tempo tpb tracks) ∧
      List.Sorted (fun a b : NoteEvent => a.time ≤ b.time)
        (post_process_events events c m) ∧
      (∀ e ∈ parse_midi_all_tempo tpb tracks, 0 ≤ e.time) ∧
      ((∀ e ∈ events, 0 ≤ e.time) →
        ∀ e ∈ post_process_events events c m, 0 ≤ e.time) :=
  ⟨sortByTime_sorted _, post_process_sorted events c m, parse_time_nonneg tpb tracks,
    fun hpos => post_process_time_nonneg events c m hc hpos⟩

/-- Witness for C3 at a concrete input. -/
theorem pipeline_monotone_witness :
    (0 : ℚ) ≤ 1/100 ∧ (0 : ℚ) ≤ 3/100 ∧
      (List.Sorted (fun a b : NoteEvent => a.time ≤ b.time)
          (parse_midi_all_tempo 480 [[⟨0, .setTempo 500000⟩, ⟨480, .noteOn 60 100⟩]]) ∧
        List.Sorted (fun a b : NoteEvent => a.time ≤ b.time)
          (post_process_events [⟨0, EKind.note_on, 60, 100⟩] (1/100) (3/100)) ∧
        (∀ e ∈ parse_midi_all_tempo 480 [[⟨0, .setTempo 500000⟩, ⟨480, .noteOn 60 100⟩]],
          0 ≤ e.time) ∧
        ((∀ e ∈ ([⟨0, EKind.note_on, 60, 100⟩] : List NoteEvent), 0 ≤ e.time) →
          ∀ e ∈ post_process_events [⟨0, EKind.note_on, 60, 100⟩] (1/100) (3/100),
            0 ≤ e.time)) :=
  ⟨by norm_num, by norm_num,
    pipeline_monotone 480 [[⟨0, .setTempo 500000⟩, ⟨480, .noteOn 60 100⟩]]
      [⟨0, EKind.note_on, 60, 100⟩] (1/100) (3/100) (by norm_num) (by norm_num)⟩

/-! ## Claim C10 -/

/-- C10: normalization never drops, duplicates or alters an event's kind,
note or velocity — the output has exactly the input's length and the
multiset of payloads is preserved (stated as a permutation of the payload
lists). Only times change. -/
theorem post_process_frame (events : List NoteEvent) (c m : ℚ) :
    (post_process_events events c m).length = events.length ∧
      ((post_process_events events c m).map payload).Perm (events.map payload) := by
  have hperm : ((post_process_events events c m).map payload).Perm
      (events.map payload) := by
    match events with
    | [] => simp [post_process_events]
    | e :: rest =>
      show ((spacingPass m (sortByTime (chordPass c (e :: rest)))).map payload).Perm _
      refine (spacingPass_map_payload_perm m _).trans ?_
      refine List.Perm.trans ?_ (chordPass_payload c (e :: rest))
      unfold sortByTime
      exact (List.perm_insertionSort _ _).map payload
  refine ⟨?_, hperm⟩
  have h := hperm.length_eq
  simpa using h

/-! ## Claim C5 -/

/-- C5: for every input timeline and non-negative `note_min_interval`, pass 2
of the normalizer separates each adjacent output pair by at least the
interval, keeps the event count, and never assigns an event a time earlier
than its pre-pass time; events at times `[0, 0.005]` with interval `0.03`
come out at times `[0, 0.03]`. -/
theorem min_spacing_enforcement :
    (∀ (m : ℚ), 0 ≤ m → ∀ l : List NoteEvent,
        List.Chain' (fun a b : NoteEvent => a.time + m ≤ b.time) (spacingPass m l) ∧
          (spacingPass m l).length = l.length ∧
          ∀ (i : Nat) (h1 : i < l.length) (h2 : i < (spacingPass m l).length),
            (l.get ⟨i, h1⟩).time ≤ ((spacingPass m l).get ⟨i, h2⟩).time) ∧
      spacingPass (3/100)
          [⟨0, EKind.note_on, 60, 100⟩, ⟨1/200, EKind.note_on, 64, 100⟩] =
        [⟨0, EKind.note_on, 60, 100⟩, ⟨3/100, EKind.note_on, 64, 100⟩] := by
  constructor
  · intro m hm l
    cases l with
    | nil =>
      refine ⟨by simp [spacingPass], by simp [spacingPass], ?_⟩
      intro i h1 h2
      simp at h1
    | cons f rest =>
      rw [spacingPass_eq_of_nonneg m hm]
      obtain ⟨hc, hh⟩ := adjustLoop_chain m rest f.time
      refine ⟨List.chain'_cons'.mpr ⟨fun y hy => hh y hy, hc⟩, ?_, ?_⟩
      · simp [adjustLoop_length]
      · intro i h1 h2
        cases i with
        | zero => exact le_refl _
        | succ j =>
          exact adjustLoop_get_time m rest f.time j (by simpa using h1)
            (by simpa using h2)
  · norm_num [spacingPass, sortByTime, List.insertionSort, List.orderedInsert, adjustLoop]

/-- Witness for C5 at the spec's concrete input. -/
theorem min_spacing_enforcement_witness :
    (0 : ℚ) ≤ 3/100 ∧
      (List.Chain' (fun a b : NoteEvent => a.time + 3/100 ≤ b.time)
          (spacingPass (3/100)
            [⟨0, EKind.note_on, 60, 100⟩, ⟨1/200, EKind.note_on, 64, 100⟩]) ∧
        (spacingPass (3/100)
            [⟨0, EKind.note_on, 60, 100⟩, ⟨1/200, EKind.note_on, 64, 100⟩]).length =
          ([⟨0, EKind.note_on, 60, 100⟩, ⟨1/200, EKind.note_on, 64, 100⟩] :
            List NoteEvent).length ∧
        ∀ (i : Nat)
          (h1 : i < ([⟨0, EKind.note_on, 60, 100⟩, ⟨1/200, EKind.note_on, 64, 100⟩] :
            List NoteEvent).length)
          (h2 : i < (spacingPass (3/100)
            [⟨0, EKind.note_on, 60, 100⟩, ⟨1/200, EKind.note_on, 64, 100⟩]).length),
          (([⟨0, EKind.note_on, 60, 100⟩, ⟨1/200, EKind.note_on, 64, 100⟩] :
              List NoteEvent).get ⟨i, h1⟩).time ≤
            ((spacingPass (3/100)
              [⟨0, EKind.note_on, 60, 100⟩,
                ⟨1/200, EKind.note_on, 64, 100⟩]).get ⟨i, h2⟩).time) :=
  ⟨by norm_num,
    min_spacing_enforcement.1 (3/100) (by norm_num)
      [⟨0, EKind.note_on, 60, 100⟩, ⟨1/200, EKind.note_on, 64, 100⟩]⟩

/-! ## Claim C4 -/

/-- C4: pass 1 of the normalizer takes each maximal group of consecutive
events within `1e-9` of the group's first event, sorts the group by note
ascending and re-times its k-th member (0-indexed) to
`groupBaseTime + k * chord_min_interval`; two simultaneous `NoteOn`s with
notes 64 then 60 and interval `0.01` yield note 60 at time 0 followed by
note 64 at time `0.01`. -/
theorem chord_spreading_spec :
    (∀ (c : ℚ) (e : NoteEvent) (g rest : List NoteEvent),
        (∀ x ∈ g, |x.time - e.time| < eps) →
        (∀ r rs, rest = r :: rs → ¬ |r.time - e.time| < eps) →
        chordPass c (e :: (g ++ rest)) =
          spreadChord e.time c (e :: g) ++ chordPass c rest) ∧
      (∀ (b c : ℚ) (grp : List NoteEvent),
        List.Sorted (fun a b : NoteEvent => a.note ≤ b.note) (spreadChord b c grp) ∧
          ∀ (k : Nat) (hk : k < (spreadChord b c grp).length),
            ((spreadChord b c grp).get ⟨k, hk⟩).time = b + (k : ℚ) * c) ∧
      chordPass (1/100) [⟨0, EKind.note_on, 64, 100⟩, ⟨0, EKind.note_on, 60, 100⟩] =
        [⟨0, EKind.note_on, 60, 100⟩, ⟨1/100, EKind.note_on, 64, 100⟩] := by
  refine ⟨?_, ?_, ?_⟩
  · intro c e g rest hg hr
    rw [chordPass_cons, takeChord_eq_of e.time g rest hg hr]
  · intro b c grp
    constructor
    · have hmap := spreadChord_map_note b c grp
      have hs : List.Pairwise (fun a b : Int => a ≤ b)
          ((sortByNote grp).map NoteEvent.note) := by
        rw [List.pairwise_map]
        haveI h1 : IsTotal NoteEvent (fun a b : NoteEvent => a.note ≤ b.note) :=
          ⟨fun a b => le_total _ _⟩
        haveI h2 : IsTrans NoteEvent (fun a b : NoteEvent => a.note ≤ b.note) :=
          ⟨fun _ _ _ ha hb => le_trans ha hb⟩
        exact List.sorted_insertionSort _ grp
      rw [← hmap] at hs
      exact List.pairwise_map.mp hs
    · intro k hk
      unfold spreadChord
      rw [List.get_map, List.get_enum]
  · norm_num [chordPass_cons, chordPass, takeChord, eps, spreadChord, sortByNote,
      List.insertionSort, List.orderedInsert, List.enum_eq_enumFrom, List.enumFrom]

/-- Witness for C4: the grouping equation applied to one concrete group. -/
theorem chord_spreading_spec_witness :
    (∀ x ∈ ([⟨0, EKind.note_on, 60, 100⟩] : List NoteEvent),
        |x.time - (0 : ℚ)| < eps) ∧
      chordPass (1/100) [⟨0, EKind.note_on, 64, 100⟩, ⟨0, EKind.note_on, 60, 100⟩] =
        spreadChord 0 (1/100)
            [⟨0, EKind.note_on, 64, 100⟩, ⟨0, EKind.note_on, 60, 100⟩] ++
          chordPass (1/100) [] :=
  ⟨by norm_num [eps],
    chord_spreading_spec.1 (1/100) ⟨0, EKind.note_on, 64, 100⟩
      [⟨0, EKind.note_on, 60, 100⟩] [] (by norm_num [eps])
      (fun r rs h => by cases h)⟩

/-! ## Claim C8 -/

/-- C8: `get_closest_white_key` clamps pitches below the lowest mapped key to
the lowest (48) and above the highest to the highest (83); in between it
returns the mapped key minimizing the absolute distance, taking the smaller
key on an exact tie; in particular pitch 51, equidistant from 50 and 52,
maps to 50. -/
theorem nearest_white_key_spec :
    (∀ pitch : Int, pitch < 48 → get_closest_white_key pitch = some 48) ∧
      (∀ pitch : Int, 83 < pitch → get_closest_white_key pitch = some 83) ∧
      (∀ pitch : Int, 48 ≤ pitch → pitch ≤ 83 →
        ∃ k ∈ WHITE_KEYS, get_closest_white_key pitch = some k ∧
          (∀ w ∈ WHITE_KEYS, |pitch - k| ≤ |pitch - w|) ∧
          (∀ w ∈ WHITE_KEYS, |pitch - w| = |pitch - k| → k ≤ w)) ∧
      get_closest_white_key 51 = some 50 := by
  have hw : WHITE_KEYS =
      [48, 50, 52, 53, 55, 57, 59, 60, 62, 64, 65, 67, 69, 71,
        72, 74, 76, 77, 79, 81, 83] := by decide
  refine ⟨?_, ?_, ?_, by decide⟩
  · intro pitch h
    unfold get_closest_white_key
    rw [hw]
    simp [h]
  · intro pitch h
    unfold get_closest_white_key
    rw [hw]
    have h2 : ¬ pitch < 48 := by omega
    simp [h, h2]
  · intro pitch h1 h2
    interval_cases pitch <;> decide

/-- Witness for C8: the boundary and interior cases at concrete pitches. -/
theorem nearest_white_key_spec_witness :
    ((40 : Int) < 48 ∧ get_closest_white_key 40 = some 48) ∧
      ((83 : Int) < 90 ∧ get_closest_white_key 90 = some 83) ∧
      ((48 : Int) ≤ 51 ∧ (51 : Int) ≤ 83 ∧
        ∃ k ∈ WHITE_KEYS, get_closest_white_key 51 = some k ∧
          (∀ w ∈ WHITE_KEYS, |(51 : Int) - k| ≤ |(51 : Int) - w|) ∧
          (∀ w ∈ WHITE_KEYS, |(51 : Int) - w| = |(51 : Int) - k| → k ≤ w)) :=
  ⟨⟨by decide, nearest_white_key_spec.1 40 (by decide)⟩,
    ⟨by decide, nearest_white_key_spec.2.1 90 (by decide)⟩,
    by decide, by decide,
    nearest_white_key_spec.2.2.1 51 (by decide) (by decide)⟩

/-! ## Claim C7 -/

/-- C7: dispatching a timeline event presses `keyFor(note)` for a `NoteOn`
with positive velocity, releases it for a `NoteOff` or a zero-velocity
`NoteOn`, and silently does nothing when no key is mapped. -/
theorem dispatch_action_spec (e : NoteEvent) :
    (get_key_for_pitch e.note = none → dispatch e = []) ∧
      ∀ key : Char, get_key_for_pitch e.note = some key →
        ((e.kind = EKind.note_on ∧ 0 < e.velocity) → dispatch e = [Action.press key]) ∧
        ((e.kind = EKind.note_off ∨ (e.kind = EKind.note_on ∧ e.velocity = 0)) →
          dispatch e = [Action.release key]) := by
  constructor
  · intro h
    unfold dispatch
    rw [h]
  · intro key hk
    constructor
    · intro hcond
      unfold dispatch
      rw [hk]
      exact if_pos hcond
    · intro hcond
      have hneg : ¬ (e.kind = EKind.note_on ∧ 0 < e.velocity) := by
        rcases hcond with h | ⟨h1, h2⟩
        · rintro ⟨h1, -⟩
          rw [h] at h1
          exact EKind.noConfusion h1
        · rintro ⟨-, hv⟩
          rw [h2] at hv
          exact lt_irrefl 0 hv
      unfold dispatch
      rw [hk]
      exact if_neg hneg

/-- Witness for C7: a mapped `NoteOn` with positive velocity presses its key. -/
theorem dispatch_action_spec_witness :
    get_key_for_pitch ((⟨0, EKind.note_on, 60, 100⟩ : NoteEvent).note) = some 'q' ∧
      dispatch ⟨0, EKind.note_on, 60, 100⟩ = [Action.press 'q'] :=
  ⟨by decide,
    ((dispatch_action_spec ⟨0, EKind.note_on, 60, 100⟩).2 'q' (by decide)).1 (by decide)⟩

/-! ## Claim C6 -/

theorem filterMap_release_count (n : Int) (key : Char)
    (hk : get_key_for_pitch n = some key) :
    ∀ l : List Int, l.Nodup → n ∈ l →
      ((l.filterMap releaseCall).countP (fun pk => decide (pk = (n, key)))) = 1 := by
  intro l
  induction l with
  | nil => intro _ h; cases h
  | cons a rest ih =>
    intro hnd hmem
    obtain ⟨hanotin, hndrest⟩ := List.nodup_cons.mp hnd
    rcases List.mem_cons.mp hmem with rfl | hmemrest
    · have hzero : ((rest.filterMap releaseCall).countP
          (fun pk => decide (pk = (n, key)))) = 0 := by
        rw [List.countP_eq_zero]
        intro pk hpk
        obtain ⟨p, hp, hfp⟩ := List.mem_filterMap.mp hpk
        intro hdec
        have hpkEq : pk = (n, key) := of_decide_eq_true hdec
        subst hpkEq
        unfold releaseCall at hfp
        rcases hfk : get_key_for_pitch p with _ | k0 <;> rw [hfk] at hfp
        · exact Option.noConfusion hfp
        · simp only [Option.map_some', Option.some_inj, Prod.mk.injEq] at hfp
          rw [hfp.1] at hp
          exact hanotin hp
      have hfn : releaseCall n = some (n, key) := by simp [releaseCall, hk]
      rw [List.filterMap_cons_some hfn, List.countP_cons, hzero]
      simp
    · rcases hfa : get_key_for_pitch a with _ | k0
      · have hfn : releaseCall a = none := by simp [releaseCall, hfa]
        rw [List.filterMap_cons_none hfn]
        exact ih hndrest hmemrest
      · have hne : ¬ ((a, k0) = (n, key)) := by
          intro hEq
          have han : a = n := congrArg Prod.fst hEq
          rw [han] at hanotin
          exact hanotin hmemrest
        have hfn : releaseCall a = some (a, k0) := by simp [releaseCall, hfa]
        rw [List.filterMap_cons_some hfn, List.countP_cons, ih hndrest hmemrest]
        simp [hne]

/-- C6: whether the playback loop exits by dispatching every event or by
cancellation at any iteration, the cleanup phase that ends the session
releases the mapped key of every distinct note of the timeline exactly
once. -/
theorem cleanup_releases_each_note_once (tl : List NoteEvent) (cancelAt : Nat)
    (n : Int) (key : Char) (hn : n ∈ tl.map NoteEvent.note)
    (hk : get_key_for_pitch n = some key) :
    play_midi_events tl cancelAt =
        ((tl.take cancelAt).map dispatch).flatten ++
          (cleanup_calls tl).map (fun pk => Action.release pk.2) ∧
      (cleanup_calls tl).countP (fun pk => decide (pk = (n, key))) = 1 :=
  ⟨rfl,
    filterMap_release_count n key hk (pressedPitches tl) (List.nodup_dedup _)
      (List.mem_dedup.mpr hn)⟩

/-- Witness for C6: cancellation after one dispatched event still releases
note 60's key exactly once in cleanup. -/
theorem cleanup_releases_each_note_once_witness :
    (60 : Int) ∈ ([⟨0, EKind.note_on, 60, 100⟩, ⟨1, EKind.note_on, 64, 100⟩] :
        List NoteEvent).map NoteEvent.note ∧
      (cleanup_calls [⟨0, EKind.note_on, 60, 100⟩, ⟨1, EKind.note_on, 64, 100⟩]).countP
        (fun pk => decide (pk = ((60 : Int), 'q'))) = 1 :=
  ⟨by decide,
    (cleanup_releases_each_note_once
      [⟨0, EKind.note_on, 60, 100⟩, ⟨1, EKind.note_on, 64, 100⟩] 1 60 'q'
      (by decide) (by decide)).2⟩

end AutoPiano
